import Mathlib

/-!
Verification of the S-record conversion functionality of the em68k repository
(`src/examples/srec2bin.py`) against its specification.

The first part embeds the Python source faithfully: `translate` and `parse`
from `srec2bin.py`, together with the semantics of Python's `int(s, base=16)`
and `bytearray.append` that they rely on.  The second part models the
S-record codec described by the specification (decoder, checksum engine,
assembler, encoder), which the repository only stubs out.
-/

namespace srec2bin

/-- Python exceptions relevant to `srec2bin.py`: `int(..., 16)` and
`bytearray.append` both raise `ValueError` on bad input. -/
inductive PyErr where
  | valueError
deriving DecidableEq, Repr

/-- Characters stripped by Python's `int` before parsing (ASCII/Latin-1
whitespace: TAB..CR, FS..US, space, NEL, NBSP). -/
def isPySpace (c : Char) : Bool :=
  (9 ≤ c.toNat && c.toNat ≤ 13) || (28 ≤ c.toNat && c.toNat ≤ 31) ||
    c.toNat = 32 || c.toNat = 133 || c.toNat = 160

/-- Value of a single hexadecimal digit as accepted by Python's
`int(_, base=16)`: `0`-`9`, `a`-`f`, `A`-`F`. -/
def hexDigitVal (c : Char) : Option Nat :=
  if 48 ≤ c.toNat && c.toNat ≤ 57 then some (c.toNat - 48)
  else if 97 ≤ c.toNat && c.toNat ≤ 102 then some (c.toNat - 87)
  else if 65 ≤ c.toNat && c.toNat ≤ 70 then some (c.toNat - 55)
  else none

/-- Strip leading and trailing whitespace, as Python's `int` does. -/
def pyTrim (cs : List Char) : List Char :=
  ((cs.dropWhile isPySpace).reverse.dropWhile isPySpace).reverse

/-- Continue parsing hex digits after the first one; Python allows single
underscores between digits, but not trailing or doubled ones. -/
def hexAcc (acc : Nat) (cs : List Char) : Option Nat :=
  match cs with
  | [] => some acc
  | c :: rest =>
    if c.toNat = 95 then
      match rest with
      | [] => none
      | c2 :: rest2 => (hexDigitVal c2).bind fun v => hexAcc (16 * acc + v) rest2
    else (hexDigitVal c).bind fun v => hexAcc (16 * acc + v) rest

/-- Parse a nonempty run of hex digits (with interior underscores). -/
def hexDigits (cs : List Char) : Option Nat :=
  match cs with
  | [] => none
  | c :: rest => (hexDigitVal c).bind fun v => hexAcc v rest

/-- Digits of a base-16 Python literal after the optional sign: an optional
`0x`/`0X` prefix (which may be followed by one underscore), then hex digits. -/
def pyHexCore (cs : List Char) : Option Nat :=
  match cs with
  | c0 :: c1 :: rest =>
    if c0.toNat = 48 && (c1.toNat = 120 || c1.toNat = 88) then
      match rest with
      | [] => none
      | c2 :: rest2 => if c2.toNat = 95 then hexDigits rest2 else hexDigits (c2 :: rest2)
    else hexDigits (c0 :: c1 :: rest)
  | cs => hexDigits cs

/-- Sign handling of Python's `int(s, base=16)` after whitespace stripping. -/
def pyIntHexAux (cs : List Char) : Option Int :=
  match cs with
  | [] => none
  | c :: rest =>
    if c.toNat = 43 then (pyHexCore rest).map (fun n => (n : Int))
    else if c.toNat = 45 then (pyHexCore rest).map (fun n => -(n : Int))
    else (pyHexCore (c :: rest)).map (fun n => (n : Int))

/-- Semantics of Python's `int(s, base=16)`: surrounding whitespace and an
optional sign are allowed; returns `none` where Python raises `ValueError`. -/
def pyIntHex (s : String) : Option Int :=
  pyIntHexAux (pyTrim s.data)

/-- Python slice `s[a:b]` for `a ≤ b` (out-of-range indices clamp). -/
def pySlice (s : String) (a b : Nat) : String :=
  ⟨(s.data.drop a).take (b - a)⟩

/-- The aligned two-character chunk `s[2*k : 2*k+2]` processed at loop
index `k` of `translate`. -/
def pyChunk (s : String) (k : Nat) : String :=
  pySlice s (2 * k) (2 * k + 2)

/-- Loop of `translate` from chunk index `k` for `n` further iterations:
`int(hexstr[2*k : 2*k+2], base=16)` then `bytearray.append`, which raises
`ValueError` unless the value lies in `0..255`. -/
def translateGo (s : String) (k n : Nat) : Except PyErr (List Nat) :=
  match n with
  | 0 => .ok []
  | n + 1 =>
    (pyIntHex (pyChunk s k)).elim (.error .valueError) fun v =>
      if 0 ≤ v ∧ v ≤ 255 then (translateGo s (k + 1) n).map (fun l => v.toNat :: l)
      else .error .valueError

/-- `translate(hexstr)` from `srec2bin.py`: converts each aligned pair of
characters of `hexstr` into one byte via `int(_, base=16)`; iterates
`range(0, len(hexstr) // 2)`, so a trailing unpaired character is ignored. -/
def translate (hexstr : String) : Except PyErr (List Nat) :=
  translateGo hexstr 0 (hexstr.length / 2)

/-- `parse(srecords)` from `srec2bin.py`, embedded as written: for each line
it computes `rectype = srec[:2]`, sets an (unused) `addrlen` when the type is
`"S0"`, and evaluates `int(srec[2:4], base=16)` (whose failure raises
`ValueError`); the function has no `return` statement, so on success it
returns Python's `None`, modelled as `Unit`. -/
def parse (srecords : List String) : Except PyErr Unit :=
  match srecords with
  | [] => .ok ()
  | srec :: rest =>
    let rectype := pySlice srec 0 2
    let _addrlen : Option Nat := if rectype = "S0" then some 2 else none
    match pyIntHex (pySlice srec 2 4) with
    | none => .error .valueError
    | some _count => parse rest

end srec2bin

namespace spec

open srec2bin (hexDigitVal)

/-- Modelled from the spec: the enumerated record-type tag of the Record
model (§3); S4 and S6 are reserved/unused.  The repository's decoder is an
unfinished stub, so the Record model is reconstructed from §3. -/
inductive RecType where
  | s0 | s1 | s2 | s3 | s5 | s7 | s8 | s9
deriving DecidableEq, Repr

/-- Modelled from the spec: the decode-error taxonomy of §7 (the repository
implements no error handling at all). -/
inductive DecodeError where
  | invalidRecordMarker
  | invalidHexDigit
  | malformedRecord
  | truncatedRecord
  | trailingGarbage
  | unsupportedRecordType
deriving DecidableEq, Repr

/-- Modelled from the spec: the Record value type of §3 — one decoded
S-record line with its type, address, data bytes, declared byte count and
trailing checksum byte. -/
structure SRecord where
  rtype : RecType
  address : Nat
  data : List Nat
  byteCount : Nat
  checksum : Nat
deriving DecidableEq, Repr

/-- Modelled from the spec: the address-field width table of §4.3 step 3, in
bytes: S0/S1/S9 (and the S5 count field) use 2 bytes, S2/S8 use 3, S3/S7
use 4. -/
def addrWidth : RecType → Nat
  | .s0 => 2
  | .s1 => 2
  | .s2 => 3
  | .s3 => 4
  | .s5 => 2
  | .s7 => 4
  | .s8 => 3
  | .s9 => 2

/-- Modelled from the spec: record-type dispatch on the digit after `S`
(§3, §7): digits 4 and 6 are reserved and unsupported. -/
def recTypeOfDigit : Nat → Option RecType
  | 0 => some .s0
  | 1 => some .s1
  | 2 => some .s2
  | 3 => some .s3
  | 5 => some .s5
  | 7 => some .s7
  | 8 => some .s8
  | 9 => some .s9
  | _ => none

/-- Modelled from the spec: big-endian serialization of an address into a
fixed number of bytes, as used by the Encoder (§4.4) and by checksum
verification over a Record's address field. -/
def addrBytes : Nat → Nat → List Nat
  | 0, _ => []
  | w + 1, a => addrBytes w (a / 256) ++ [a % 256]

/-- Modelled from the spec: the big-endian value of an address byte
sequence, as recovered by the Decoder (§4.3 step 4). -/
def natOfBytes (bs : List Nat) : Nat :=
  bs.foldl (fun acc b => 256 * acc + b) 0

/-- Modelled from the spec: the Checksum Engine's `compute` (§4.2) — sum the
byte-count byte, each address byte and each data byte modulo 256, then take
the one's complement `255 - sum_mod_256`. -/
def checksumCompute (byteCount : Nat) (aBytes data : List Nat) : Nat :=
  255 - ((byteCount + aBytes.sum + data.sum) % 256)

/-- Modelled from the spec: the Checksum Engine's `verify` (§4.2) —
recompute and compare against the record's trailing checksum byte,
returning a boolean. -/
def checksumVerify (r : SRecord) : Bool :=
  checksumCompute r.byteCount (addrBytes (addrWidth r.rtype) r.address) r.data == r.checksum

/-- Modelled from the spec: reading consecutive hex pairs as bytes (§6
record grammar); fails on any character that is not a hex digit. -/
def hexPairsOf : List Char → Option (List Nat)
  | [] => some []
  | [_] => none
  | c1 :: c2 :: rest =>
    (hexDigitVal c1).bind fun v1 => (hexDigitVal c2).bind fun v2 =>
      (hexPairsOf rest).map fun bs => (16 * v1 + v2) :: bs

def markerOkCore : List Char → Bool
  | c0 :: d :: _ => c0 = 'S' && (48 ≤ d.toNat && d.toNat ≤ 57)
  | _ => false

/-- Modelled from the spec: the record-marker test of §4.3 step 1 — the line
must start with `S` followed by exactly one decimal digit. -/
def markerOk (s : String) : Bool :=
  markerOkCore s.data

/-- Modelled from the spec: Decoder steps 4-6 of §4.3 once the type and
declared byte count are known: the remaining hex-pair count must equal the
byte count exactly (`TruncatedRecord` / `TrailingGarbage`), every remaining
character must be a hex digit, the declared count must cover the address
field and checksum (`MalformedRecord` otherwise, per the Record-construction
validation of §4.1), and the final byte is the checksum. -/
def decodeBody (rt : RecType) (bc : Nat) (body : List Char) : Except DecodeError SRecord :=
  if body.length < 2 * bc then .error .truncatedRecord
  else if 2 * bc < body.length then .error .trailingGarbage
  else
    (hexPairsOf body).elim (.error .invalidHexDigit) fun bytes =>
      if bc < addrWidth rt + 1 then .error .malformedRecord
      else
        .ok { rtype := rt, address := natOfBytes (bytes.take (addrWidth rt)),
              data := (bytes.drop (addrWidth rt)).dropLast, byteCount := bc,
              checksum := (bytes.drop (addrWidth rt)).getLastD 0 }

/-- Modelled from the spec: Decoder step 2 of §4.3 — the two characters
after the marker are the byte count and must parse as hex
(`InvalidHexDigit`). -/
def decodeCount (rt : RecType) : List Char → Except DecodeError SRecord
  | c1 :: c2 :: body =>
    ((hexDigitVal c1).bind fun v1 => (hexDigitVal c2).map fun v2 =>
      16 * v1 + v2).elim (.error .invalidHexDigit) fun bc => decodeBody rt bc body
  | _ => .error .invalidHexDigit

/-- Modelled from the spec: Decoder step 3 of §4.3 — digits 4/6 name
unsupported record types; otherwise continue with the byte count. -/
def decodeAfterMarker (t : Nat) (rest : List Char) : Except DecodeError SRecord :=
  (recTypeOfDigit t).elim (.error .unsupportedRecordType) fun rt => decodeCount rt rest

def decodeLineCore : List Char → Except DecodeError SRecord
  | c0 :: d :: rest =>
    if c0 = 'S' && (48 ≤ d.toNat && d.toNat ≤ 57) then decodeAfterMarker (d.toNat - 48) rest
    else .error .invalidRecordMarker
  | _ => .error .invalidRecordMarker

/-- Modelled from the spec: the Decoder of §4.3 — converts one trimmed ASCII
line into a Record or fails; the repository's `parse` stub implements none
of this. -/
def decodeLine (s : String) : Except DecodeError SRecord :=
  decodeLineCore s.data

/-- Modelled from the spec: the AddressSpace of §3 — an ordered collection
of (start address, bytes) ranges, applied in file order. -/
structure AddressSpace where
  ranges : List (Nat × List Nat)
deriving DecidableEq, Repr

/-- Modelled from the spec: the Address-Space Assembler and forward File
Converter of §4.5/§4.6 — decode each line, append data records (S1/S2/S3)
to the address space in file order, ignore S0/S5, and finalize at the first
termination record (S7/S8/S9), capturing its address as the entry point. -/
def decodeFileGo (lines : List String) (sp : AddressSpace) :
    Except DecodeError (AddressSpace × Option Nat) :=
  match lines with
  | [] => .ok (sp, none)
  | line :: rest =>
    match decodeLine line with
    | .error e => .error e
    | .ok r =>
      match r.rtype with
      | .s1 | .s2 | .s3 => decodeFileGo rest ⟨sp.ranges ++ [(r.address, r.data)]⟩
      | .s0 | .s5 => decodeFileGo rest sp
      | .s7 | .s8 | .s9 => .ok (sp, some r.address)

/-- Modelled from the spec: `decode_file(lines) -> (AddressSpace,
entry_point) | Error` (§6), starting from an empty address space. -/
def decode_file (lines : List String) : Except DecodeError (AddressSpace × Option Nat) :=
  decodeFileGo lines ⟨[]⟩

/-- Modelled from the spec: reading one byte of the assembled image; later
ranges override earlier ones at the same address (§4.5 overlap policy). -/
def lookupByte (ranges : List (Nat × List Nat)) (a : Nat) : Option Nat :=
  match ranges with
  | [] => none
  | r :: rest =>
    (lookupByte rest a).elim
      (if r.1 ≤ a ∧ a < r.1 + r.2.length then r.2[a - r.1]? else none) some

/-- Modelled from the spec: the contiguous view of an AddressSpace (§3) —
the bytes at addresses `a, a+1, ...`, defined only when no gaps occur. -/
def readBytes (sp : AddressSpace) (a : Nat) : Nat → Option (List Nat)
  | 0 => some []
  | n + 1 =>
    (lookupByte sp.ranges a).bind fun b => (readBytes sp (a + 1) n).map (fun l => b :: l)

/-- Modelled from the spec: uppercase hex digit characters used by the
Encoder (§4.4, §6: uppercase on output). -/
def hexChar : Nat → Char
  | 0 => '0' | 1 => '1' | 2 => '2' | 3 => '3' | 4 => '4'
  | 5 => '5' | 6 => '6' | 7 => '7' | 8 => '8' | 9 => '9'
  | 10 => 'A' | 11 => 'B' | 12 => 'C' | 13 => 'D' | 14 => 'E'
  | 15 => 'F' | _ => '*'

/-- Modelled from the spec: serialization of one byte as two uppercase hex
characters (§4.4). -/
def toHexPair (n : Nat) : List Char :=
  [hexChar (n / 16), hexChar (n % 16)]

/-- Modelled from the spec: serialization of a byte sequence as hex pairs
(§4.4). -/
def bytesToHex : List Nat → List Char
  | [] => []
  | b :: bs => toHexPair b ++ bytesToHex bs

/-- Modelled from the spec: the Encoder of §4.4 — given a type digit, an
address width, an address and data bytes, computes the byte count,
serializes address and data, computes the checksum via the Checksum Engine
and emits `S<digit>` followed by the hex pairs. -/
def encodeRecord (digit w addr : Nat) (data : List Nat) : String :=
  let aB := addrBytes w addr
  let bc := w + data.length + 1
  ⟨'S' :: hexChar digit :: bytesToHex (bc :: (aB ++ data ++ [checksumCompute bc aB data]))⟩

/-- Modelled from the spec: splitting a buffer based at address `A` into
successive chunks of at most `c` bytes with their start addresses (§4.6
reverse mode). -/
def chunkGo (c : Nat) : Nat → Nat → List Nat → List (Nat × List Nat)
  | 0, _, _ => []
  | fuel + 1, A, l =>
    if c = 0 ∨ l = [] then [] else (A, l.take c) :: chunkGo c fuel (A + c) (l.drop c)

/-- Modelled from the spec: `chunkRanges c A l` splits the buffer `l` based
at address `A` into successive chunks of at most `c` bytes, paired with
their start addresses (§4.6 reverse mode); `chunkGo` supplies the fuel. -/
def chunkRanges (c A : Nat) (l : List Nat) : List (Nat × List Nat) :=
  chunkGo c l.length A l

/-- Modelled from the spec: the smallest address width (in bytes, among the
supported 2/3/4) that can represent a given address (§4.6 reverse mode). -/
def pickWidth (m : Nat) : Nat :=
  if m < 2 ^ 16 then 2 else if m < 2 ^ 24 then 3 else 4

/-- Modelled from the spec: the data-record type digit for each address
width (S1/S2/S3 for 2/3/4 bytes, §3). -/
def dataDigit : Nat → Nat
  | 2 => 1
  | 3 => 2
  | _ => 3

/-- Modelled from the spec: the termination-record type digit mirroring each
data width (S1↔S9, S2↔S8, S3↔S7, §4.6). -/
def termDigit : Nat → Nat
  | 2 => 9
  | 3 => 8
  | _ => 7

/-- Modelled from the spec: the smallest supported address width able to
represent every chunk's start address (and the base address) of a buffer
(§4.6 reverse mode). -/
def bufferWidth (B : List Nat) (A c : Nat) : Nat :=
  pickWidth ((chunkRanges c A B).foldl (fun acc r => max acc r.1) A)

/-- Modelled from the spec: `encode_buffer(buffer, base_address, chunk_size,
with_header)` (§6, §4.6 reverse mode) — split the buffer into chunks,
encode each as a data record of the smallest width representing every
chunk's address, prepend an optional S0 header and append one termination
record whose address is the entry point (defaulting to the base address,
§8). -/
def encode_buffer (B : List Nat) (A c : Nat) (withHeader : Bool) : List String :=
  (if withHeader then [encodeRecord 0 2 0 []] else []) ++
    (chunkRanges c A B).map (fun r =>
      encodeRecord (dataDigit (bufferWidth B A c)) (bufferWidth B A c) r.1 r.2) ++
    [encodeRecord (termDigit (bufferWidth B A c)) (bufferWidth B A c) A []]

end spec

namespace srec2bin

/-- A two-character string both of whose characters are hexadecimal digits:
the "valid hexadecimal pair" of the specification's record grammar. -/
def isHexPairCore : List Char → Bool
  | [c1, c2] => (hexDigitVal c1).isSome && (hexDigitVal c2).isSome
  | _ => false

/-- Modelled helper for stating claims: a two-character string both of whose
characters are hexadecimal digits. -/
def isHexPair (t : String) : Bool :=
  isHexPairCore t.data

/-- Base-16 value of a two-character hex pair. -/
def hexPairValCore : List Char → Nat
  | [c1, c2] => 16 * (hexDigitVal c1).getD 0 + (hexDigitVal c2).getD 0
  | _ => 0

/-- Base-16 value of a two-character hex pair (0 on other shapes). -/
def hexPairVal (t : String) : Nat :=
  hexPairValCore t.data

/-- The byte values of the aligned chunks of `s`, one per loop iteration of
`translate`. -/
def hexPairVals (s : String) : List Nat :=
  (List.range (s.length / 2)).map fun k => hexPairVal (pyChunk s k)

/-- Embedding of Python's `str.upper` for the ASCII range (sufficient for
hex-digit strings). -/
def pyUpperChar (c : Char) : Char :=
  if 97 ≤ c.toNat ∧ c.toNat ≤ 122 then Char.ofNat (c.toNat - 32) else c

/-- Embedding of Python's `s.upper()` on ASCII strings. -/
def pyUpper (s : String) : String :=
  ⟨s.data.map pyUpperChar⟩

theorem hexDigitVal_bounds {c : Char} {v : Nat} (h : hexDigitVal c = some v) :
    v < 16 ∧ ((48 ≤ c.toNat ∧ c.toNat ≤ 57) ∨ (97 ≤ c.toNat ∧ c.toNat ≤ 102) ∨
      (65 ≤ c.toNat ∧ c.toNat ≤ 70)) := by
  unfold hexDigitVal at h
  split_ifs at h with h1 h2 h3 <;>
    simp only [Bool.and_eq_true, decide_eq_true_eq] at * <;>
    injection h with hv <;> omega

theorem isPySpace_of_hex {c : Char} {v : Nat} (h : hexDigitVal c = some v) :
    isPySpace c = false := by
  obtain ⟨-, hb⟩ := hexDigitVal_bounds h
  unfold isPySpace
  simp only [Bool.or_eq_false_iff, Bool.and_eq_false_iff, decide_eq_false_iff_not]
  omega

theorem pyIntHex_pair {c1 c2 : Char} {v1 v2 : Nat}
    (h1 : hexDigitVal c1 = some v1) (h2 : hexDigitVal c2 = some v2) :
    pyIntHex ⟨[c1, c2]⟩ = some ((16 * v1 + v2 : Nat) : Int) := by
  obtain ⟨hv1, hb1⟩ := hexDigitVal_bounds h1
  obtain ⟨hv2, hb2⟩ := hexDigitVal_bounds h2
  have s1 := isPySpace_of_hex h1
  have s2 := isPySpace_of_hex h2
  have htrim : pyTrim [c1, c2] = [c1, c2] := by
    simp [pyTrim, List.dropWhile_cons, s1, s2]
  have hd : (⟨[c1, c2]⟩ : String).data = [c1, c2] := rfl
  have n43 : ¬(c1.toNat = 43) := by omega
  have n45 : ¬(c1.toNat = 45) := by omega
  have hcore : pyHexCore [c1, c2] = some (16 * v1 + v2) := by
    have hpre : ¬((c1.toNat = 48 && (c2.toNat = 120 || c2.toNat = 88)) = true) := by
      simp only [Bool.and_eq_true, Bool.or_eq_true, decide_eq_true_eq]
      omega
    have n95 : ¬(c2.toNat = 95) := by omega
    simp only [pyHexCore, if_neg hpre, hexDigits, h1, Option.some_bind, hexAcc,
      if_neg n95, h2, Option.none_bind]
  unfold pyIntHex
  rw [hd, htrim]
  simp only [pyIntHexAux, if_neg n43, if_neg n45, hcore, Option.map_some']
  rfl

theorem translateGo_ok (s : String) (n : Nat) : ∀ (k : Nat),
    (∀ j, j < n → isHexPair (pyChunk s (k + j)) = true) →
    translateGo s k n = .ok ((List.range n).map fun j => hexPairVal (pyChunk s (k + j))) := by
  induction n with
  | zero => intro k _; rfl
  | succ n ih =>
    intro k h
    have h0 : isHexPair (pyChunk s k) = true := by
      have := h 0 (Nat.succ_pos n); simpa using this
    unfold isHexPair at h0
    obtain ⟨c1, c2, hdata⟩ : ∃ c1 c2, (pyChunk s k).data = [c1, c2] := by
      rcases hd : (pyChunk s k).data with _ | ⟨a, _ | ⟨b, _ | ⟨e, l⟩⟩⟩ <;>
        rw [hd] at h0 <;> first | exact ⟨a, b, rfl⟩ | simp [isHexPairCore] at h0
    rw [hdata] at h0
    simp only [isHexPairCore, Bool.and_eq_true, Option.isSome_iff_exists] at h0
    obtain ⟨⟨v1, hv1⟩, v2, hv2⟩ := h0
    have hchunk : pyChunk s k = ⟨[c1, c2]⟩ := by
      have he : pyChunk s k = ⟨(pyChunk s k).data⟩ := rfl
      rw [he, hdata]
    have hval : pyIntHex (pyChunk s k) = some ((16 * v1 + v2 : Nat) : Int) := by
      rw [hchunk]; exact pyIntHex_pair hv1 hv2
    have hpv : hexPairVal (pyChunk s k) = 16 * v1 + v2 := by
      unfold hexPairVal
      rw [hdata]
      simp only [hexPairValCore, hv1, hv2, Option.getD_some]
    have hle : ((16 * v1 + v2 : Nat) : Int) ≤ 255 := by
      obtain ⟨b1, -⟩ := hexDigitVal_bounds hv1
      obtain ⟨b2, -⟩ := hexDigitVal_bounds hv2
      omega
    have hcond : (0 : Int) ≤ ((16 * v1 + v2 : Nat) : Int) ∧
        ((16 * v1 + v2 : Nat) : Int) ≤ 255 := ⟨Int.ofNat_nonneg _, hle⟩
    unfold translateGo
    rw [hval]
    simp only [Option.elim, if_pos hcond]
    rw [ih (k + 1) (fun j hj => by
      have := h (j + 1) (Nat.succ_lt_succ hj)
      simpa [Nat.add_assoc, Nat.add_comm 1 j] using this)]
    simp only [Except.map]
    rw [List.range_succ_eq_map, List.map_cons, List.map_map]
    congr 1
    congr 1
    · simp only [Nat.add_zero]; rw [hpv]; omega
    · apply List.map_congr_left
      intro j _
      simp [Function.comp, Nat.add_assoc, Nat.add_comm 1 j]

theorem translate_ok_of_pairs (s : String)
    (h : ∀ k, k < s.length / 2 → isHexPair (pyChunk s k) = true) :
    translate s = .ok (hexPairVals s) := by
  unfold translate hexPairVals
  rw [translateGo_ok s (s.length / 2) 0 (fun j hj => by simpa using h j hj)]
  simp

end srec2bin

namespace srec2bin

example : pyIntHex "1A" = some 26 := by rfl

example : pyIntHex "0x_1a" = some 26 := by rfl

example : pyIntHex " 1 " = some 1 := by rfl

example : pyIntHex "+f" = some 15 := by rfl

example : pyIntHex "-1" = some (-1) := by rfl

example : pyIntHex "0x" = none := by rfl

example : pyIntHex "1_" = none := by rfl

example : pyIntHex "" = none := by rfl

example : translate "0AfF" = .ok [10, 255] := by rfl

example : translate "0Af" = .ok [10] := by rfl

example : translate "-1" = .error .valueError := by rfl

example : translate "zz" = .error .valueError := by rfl

example : parse ["S1130000285F245F2212226E004F6E6EFE1BD7"] = .ok () := by rfl

example : parse ["S1GZ"] = .error .valueError := by rfl

end srec2bin

namespace spec

example : decodeLine "S1130000285F245F2212226A000424290008237C2A" =
    .ok { rtype := .s1, address := 0,
          data := [40, 95, 36, 95, 34, 18, 34, 106, 0, 4, 36, 41, 0, 8, 35, 124],
          byteCount := 19, checksum := 42 } := by rfl

example : decodeLine "S1130000285F245F2212226E004F6E6EFE1BD7" =
    .error .truncatedRecord := by rfl

example : decode_file (encode_buffer [1, 2, 3] 256 2 true) =
    .ok (⟨[(256, [1, 2]), (258, [3])]⟩, some 256) := by rfl

example : readBytes ⟨[(256, [1, 2]), (258, [3])]⟩ 256 3 = some [1, 2, 3] := by rfl

end spec

namespace srec2bin

theorem chunk_data (s : String) (k : Nat) (hk : k < s.length / 2) :
    ∃ c1 c2, (pyChunk s k).data = [c1, c2] ∧ c1 ∈ s.data ∧ c2 ∈ s.data := by
  have hsl : s.length = s.data.length := rfl
  have h2 : 2 * k + 2 - 2 * k = 2 := by omega
  have hd : (pyChunk s k).data = (s.data.drop (2 * k)).take (2 * k + 2 - 2 * k) := rfl
  rw [h2] at hd
  have hsub : (s.data.drop (2 * k)).take 2 ⊆ s.data :=
    ((List.take_sublist _ _).trans (List.drop_sublist _ _)).subset
  have hlen : ((s.data.drop (2 * k)).take 2).length = 2 := by
    rw [List.length_take, List.length_drop]
    omega
  rcases hl : (s.data.drop (2 * k)).take 2 with _ | ⟨c1, _ | ⟨c2, _ | ⟨c3, l⟩⟩⟩ <;>
    rw [hl] at hlen <;> try simp at hlen
  refine ⟨c1, c2, by rw [hd, hl], hsub ?_, hsub ?_⟩
  · rw [hl]; exact List.mem_cons_self _ _
  · rw [hl]; exact List.mem_cons_of_mem _ (List.mem_cons_self _ _)

theorem hexDigitVal_pyUpperChar {c : Char} (h : (hexDigitVal c).isSome = true) :
    hexDigitVal (pyUpperChar c) = hexDigitVal c := by
  obtain ⟨v, hv⟩ := Option.isSome_iff_exists.mp h
  obtain ⟨-, hb⟩ := hexDigitVal_bounds hv
  have hofNat : c = Char.ofNat c.toNat := (Char.ofNat_toNat c).symm
  rcases hb with h1 | h2 | h3
  · have hno : ¬(97 ≤ c.toNat ∧ c.toNat ≤ 122) := by omega
    unfold pyUpperChar
    rw [if_neg hno]
  · have h6 : c.toNat = 97 ∨ c.toNat = 98 ∨ c.toNat = 99 ∨ c.toNat = 100 ∨
        c.toNat = 101 ∨ c.toNat = 102 := by omega
    rcases h6 with h6 | h6 | h6 | h6 | h6 | h6 <;>
      · rw [h6] at hofNat; rw [hofNat]; decide
  · have hno : ¬(97 ≤ c.toNat ∧ c.toNat ≤ 122) := by omega
    unfold pyUpperChar
    rw [if_neg hno]

/-- C9: for every string all of whose aligned 2-character chunks are valid
hexadecimal pairs, `translate` returns the list of the chunks' base-16
values: its length is `len(s) // 2` and its `k`-th byte is the value of
`s[2*k : 2*k+2]`; a trailing unpaired character (odd length) is ignored. -/
theorem C9_translate_values (s : String)
    (h : ∀ k, k < s.length / 2 → isHexPair (pyChunk s k) = true) :
    translate s = .ok (hexPairVals s) ∧ (hexPairVals s).length = s.length / 2 ∧
      ∀ k, k < s.length / 2 → (hexPairVals s)[k]? = some (hexPairVal (pyChunk s k)) := by
  refine ⟨translate_ok_of_pairs s h, ?_, ?_⟩
  · unfold hexPairVals; simp
  · intro k hk
    unfold hexPairVals
    rw [List.getElem?_map, List.getElem?_range hk]
    rfl

/-- C9 witness: the hypothesis holds for the concrete string `"0aF1"` and
`translate` returns its chunk values `[0x0A, 0xF1]`. -/
theorem C9_witness :
    ((∀ k, k < "0aF1".length / 2 → isHexPair (pyChunk "0aF1" k) = true) ∧
      translate "0aF1" = .ok (hexPairVals "0aF1")) ∧ hexPairVals "0aF1" = [10, 241] :=
  ⟨⟨by decide, (C9_translate_values "0aF1" (by decide)).1⟩, by rfl⟩

/-- C8: hex decoding in `translate` is case-insensitive — for every string
of hex digits, translating the uppercased string yields the same bytes. -/
theorem C8_translate_case_insensitive (s : String)
    (h : ∀ c ∈ s.data, (hexDigitVal c).isSome = true) :
    translate (pyUpper s) = translate s := by
  have hlen : (pyUpper s).length = s.length := by
    show (s.data.map pyUpperChar).length = s.data.length
    simp
  have hchunkdata : ∀ k : Nat, (pyChunk (pyUpper s) k).data =
      (pyChunk s k).data.map pyUpperChar := by
    intro k
    show ((s.data.map pyUpperChar).drop (2 * k)).take (2 * k + 2 - 2 * k) =
      (((s.data.drop (2 * k)).take (2 * k + 2 - 2 * k))).map pyUpperChar
    rw [List.map_take, List.map_drop]
  have hpairs : ∀ k, k < s.length / 2 → isHexPair (pyChunk s k) = true := by
    intro k hk
    obtain ⟨c1, c2, hd, m1, m2⟩ := chunk_data s k hk
    unfold isHexPair
    rw [hd]
    simp [isHexPairCore, h c1 m1, h c2 m2]
  have hpairsU : ∀ k, k < (pyUpper s).length / 2 → isHexPair (pyChunk (pyUpper s) k) = true := by
    intro k hk
    rw [hlen] at hk
    obtain ⟨c1, c2, hd, m1, m2⟩ := chunk_data s k hk
    unfold isHexPair
    rw [hchunkdata k, hd]
    simp only [List.map_cons, List.map_nil, isHexPairCore,
      hexDigitVal_pyUpperChar (h c1 m1), hexDigitVal_pyUpperChar (h c2 m2)]
    simp [h c1 m1, h c2 m2]
  rw [translate_ok_of_pairs _ hpairsU, translate_ok_of_pairs _ hpairs]
  congr 1
  unfold hexPairVals
  rw [hlen]
  apply List.map_congr_left
  intro k hk
  have hk2 : k < s.length / 2 := List.mem_range.mp hk
  obtain ⟨c1, c2, hd, m1, m2⟩ := chunk_data s k hk2
  unfold hexPairVal
  rw [hchunkdata k, hd]
  simp only [List.map_cons, List.map_nil, hexPairValCore,
    hexDigitVal_pyUpperChar (h c1 m1), hexDigitVal_pyUpperChar (h c2 m2)]

/-- C8 witness: for the concrete hex string `"0afb"`, whose uppercase form
is `"0AFB"`, both translations agree. -/
theorem C8_witness :
    (∀ c ∈ "0afb".data, (hexDigitVal c).isSome = true) ∧
      pyUpper "0afb" = "0AFB" ∧ translate (pyUpper "0afb") = translate "0afb" :=
  ⟨by decide, by rfl, C8_translate_case_insensitive "0afb" (by decide)⟩

theorem translateGo_error_iff (s : String) (n : Nat) : ∀ (k : Nat),
    translateGo s k n = .error .valueError ↔
      ∃ j, j < n ∧ ∀ v : Int, pyIntHex (pyChunk s (k + j)) = some v →
        ¬(0 ≤ v ∧ v ≤ 255) := by
  induction n with
  | zero =>
    intro k
    constructor
    · intro h; cases h
    · rintro ⟨j, hj, -⟩; omega
  | succ n ih =>
    intro k
    unfold translateGo
    cases hv : pyIntHex (pyChunk s k) with
    | none =>
      simp only [Option.elim]
      constructor
      · intro _
        refine ⟨0, Nat.succ_pos n, fun v hsome => ?_⟩
        rw [Nat.add_zero, hv] at hsome
        cases hsome
      · intro _; trivial
    | some v =>
      simp only [Option.elim]
      by_cases hc : 0 ≤ v ∧ v ≤ 255
      · rw [if_pos hc]
        constructor
        · intro herr
          have hinner : translateGo s (k + 1) n = .error .valueError := by
            cases hgo : translateGo s (k + 1) n with
            | ok l => rw [hgo] at herr; cases herr
            | error e => cases e; rfl
          obtain ⟨j, hj, hbad⟩ := (ih (k + 1)).mp hinner
          refine ⟨j + 1, Nat.succ_lt_succ hj, fun w hw => hbad w ?_⟩
          rw [show k + 1 + j = k + (j + 1) by omega]
          exact hw
        · rintro ⟨j, hj, hbad⟩
          cases j with
          | zero =>
            exact absurd hc (hbad v (by rw [Nat.add_zero]; exact hv))
          | succ j =>
            have hinner : translateGo s (k + 1) n = .error .valueError := by
              refine (ih (k + 1)).mpr ⟨j, Nat.lt_of_succ_lt_succ hj, fun w hw => hbad w ?_⟩
              rw [show k + (j + 1) = k + 1 + j by omega]
              exact hw
            rw [hinner]
            rfl
      · rw [if_neg hc]
        constructor
        · intro _
          refine ⟨0, Nat.succ_pos n, fun w hw => ?_⟩
          rw [Nat.add_zero, hv] at hw
          injection hw with hw'
          rwa [← hw']
        · intro _; rfl

/-- C10 (amended): `translate(s)` raises `ValueError` exactly when some
aligned 2-character chunk fails to yield a byte in `0..255` through
`int(_, base=16)` — either the chunk is rejected by `int` or it parses to a
value outside `range(0, 256)`, which `bytearray.append` rejects. -/
theorem C10_translate_error_iff (s : String) :
    translate s = .error .valueError ↔
      ∃ k, k < s.length / 2 ∧ ∀ v : Int, pyIntHex (pyChunk s k) = some v →
        ¬(0 ≤ v ∧ v ≤ 255) := by
  unfold translate
  rw [translateGo_error_iff s (s.length / 2) 0]
  constructor
  · rintro ⟨j, hj, hbad⟩
    exact ⟨j, hj, by simpa using hbad⟩
  · rintro ⟨k, hk, hbad⟩
    exact ⟨k, hk, by simpa using hbad⟩

/-- C10 counterexample: on `s = "-1"` every aligned chunk (there is exactly
one, the whole string) is accepted by `int(_, 16)` — it parses to `-1` — yet
`translate` raises `ValueError` (from `bytearray.append`), so "raises iff
some chunk is not a valid hexadecimal pair per `int(_, 16)`" is false. -/
theorem C10_counterexample :
    translate "-1" = .error .valueError ∧ pyIntHex (pyChunk "-1" 0) = some (-1) ∧
      "-1".length / 2 = 1 :=
  ⟨rfl, rfl, rfl⟩

/-- C2 (code bug): the repository's `parse` has no `return` statement, so on
any input on which it does not raise it returns Python's `None` — it returns
neither an assembled address-space image with an entry point nor an error,
contradicting the specified `decode_file` contract.  Evaluated here on the
spec's own example line and on a well-formed termination record. -/
theorem C2_parse_stub_returns_none :
    parse ["S1130000285F245F2212226E004F6E6EFE1BD7"] = .ok () ∧
      parse ["S9030000FC"] = .ok () :=
  ⟨rfl, rfl⟩

end srec2bin

namespace spec

/-- C1 counterexample: the spec's concrete example line
`S1130000285F245F2212226E004F6E6EFE1BD7` does not decode successfully at
all, so it cannot yield an S1 record with 16 data bytes and a verified
checksum. -/
theorem C1_counterexample :
    (decodeLine "S1130000285F245F2212226E004F6E6EFE1BD7").isOk = false :=
  rfl

/-- C1 (amended): decoding the spec's example line fails with
`TruncatedRecord` — the 38-character line supplies only 17 hex pairs after
the byte-count field while its declared byte count `0x13 = 19` requires 19.
A full 42-character S1 line with byte count `0x13`, such as
`S1130000285F245F2212226A000424290008237C2A`, does decode to type S1,
address 0x0000, exactly 16 data bytes, and a trailing checksum byte whose
verification returns true. -/
theorem C1_example_line :
    decodeLine "S1130000285F245F2212226E004F6E6EFE1BD7" = .error .truncatedRecord ∧
      "S1130000285F245F2212226E004F6E6EFE1BD7".length = 38 ∧
      decodeLine "S1130000285F245F2212226A000424290008237C2A" =
        .ok { rtype := .s1, address := 0,
              data := [40, 95, 36, 95, 34, 18, 34, 106, 0, 4, 36, 41, 0, 8, 35, 124],
              byteCount := 19, checksum := 42 } ∧
      checksumVerify { rtype := .s1, address := 0,
                       data := [40, 95, 36, 95, 34, 18, 34, 106, 0, 4, 36, 41, 0, 8, 35, 124],
                       byteCount := 19, checksum := 42 } = true :=
  ⟨rfl, rfl, rfl, rfl⟩

/-- C3: every input line that does not start with `S` followed by exactly
one decimal digit fails to decode with `InvalidRecordMarker`, and with no
other outcome. -/
theorem C3_invalid_marker (s : String) (h : markerOk s = false) :
    decodeLine s = .error .invalidRecordMarker := by
  unfold markerOk at h
  unfold decodeLine
  rcases hd : s.data with _ | ⟨c0, _ | ⟨d, rest⟩⟩ <;> rw [hd] at h <;>
    simp only [markerOkCore] at h <;> simp [decodeLineCore, h]

/-- C3 witness: the lowercase line `s1130000FF` has an invalid marker and
decodes to `InvalidRecordMarker`. -/
theorem C3_witness :
    markerOk "s1130000FF" = false ∧
      decodeLine "s1130000FF" = .error .invalidRecordMarker :=
  ⟨rfl, C3_invalid_marker "s1130000FF" rfl⟩

end spec

namespace spec

open srec2bin (hexDigitVal)

theorem hexPairsOf_length : ∀ (bs : List Nat) (cs : List Char),
    hexPairsOf cs = some bs → cs.length = 2 * bs.length := by
  intro bs
  induction bs with
  | nil =>
    intro cs h
    rcases cs with _ | ⟨c1, _ | ⟨c2, rest⟩⟩
    · rfl
    · simp [hexPairsOf] at h
    · simp only [hexPairsOf] at h
      cases h1 : hexDigitVal c1 with
      | none => rw [h1] at h; simp at h
      | some v1 =>
        rw [h1, Option.some_bind] at h
        cases h2 : hexDigitVal c2 with
        | none => rw [h2] at h; simp at h
        | some v2 =>
          rw [h2, Option.some_bind] at h
          cases h3 : hexPairsOf rest with
          | none => rw [h3] at h; simp at h
          | some bs2 => rw [h3] at h; simp at h
  | cons b bs ih =>
    intro cs h
    rcases cs with _ | ⟨c1, _ | ⟨c2, rest⟩⟩
    · simp [hexPairsOf] at h
    · simp [hexPairsOf] at h
    · simp only [hexPairsOf] at h
      cases h1 : hexDigitVal c1 with
      | none => rw [h1] at h; simp at h
      | some v1 =>
        rw [h1, Option.some_bind] at h
        cases h2 : hexDigitVal c2 with
        | none => rw [h2] at h; simp at h
        | some v2 =>
          rw [h2, Option.some_bind] at h
          cases h3 : hexPairsOf rest with
          | none => rw [h3] at h; simp at h
          | some bs2 =>
            rw [h3] at h
            simp only [Option.map_some', Option.some.injEq, List.cons.injEq] at h
            obtain ⟨-, hbs⟩ := h
            have hlen := ih rest (by rw [h3, hbs])
            simp only [List.length_cons, hlen]
            ring

theorem decodeBody_ok {rt : RecType} {bc : Nat} {body : List Char} {r : SRecord}
    (h : decodeBody rt bc body = .ok r) :
    r.rtype = rt ∧ r.byteCount = bc ∧ addrWidth rt + 1 ≤ bc ∧
      r.data.length + addrWidth rt + 1 = bc ∧ body.length = 2 * bc := by
  unfold decodeBody at h
  by_cases ht : body.length < 2 * bc
  · rw [if_pos ht] at h; cases h
  rw [if_neg ht] at h
  by_cases hg : 2 * bc < body.length
  · rw [if_pos hg] at h; cases h
  rw [if_neg hg] at h
  cases hp : hexPairsOf body with
  | none => rw [hp] at h; simp only [Option.elim] at h; cases h
  | some bytes =>
    rw [hp] at h
    simp only [Option.elim] at h
    by_cases hm : bc < addrWidth rt + 1
    · rw [if_pos hm] at h; cases h
    rw [if_neg hm] at h
    injection h with hr
    subst hr
    have hblen : body.length = 2 * bytes.length := hexPairsOf_length bytes body hp
    have hbc : bytes.length = bc := by omega
    refine ⟨rfl, rfl, by omega, ?_, by omega⟩
    simp only [List.length_dropLast, List.length_drop]
    omega

theorem decodeLine_reduce (d c1 c2 : Char) (body : List Char) (rt : RecType) (v1 v2 : Nat)
    (hd1 : 48 ≤ d.toNat) (hd2 : d.toNat ≤ 57)
    (hrt : recTypeOfDigit (d.toNat - 48) = some rt)
    (h1 : hexDigitVal c1 = some v1) (h2 : hexDigitVal c2 = some v2) :
    decodeLine ⟨'S' :: d :: c1 :: c2 :: body⟩ = decodeBody rt (16 * v1 + v2) body := by
  have hdata : (⟨'S' :: d :: c1 :: c2 :: body⟩ : String).data =
      'S' :: d :: c1 :: c2 :: body := rfl
  unfold decodeLine
  rw [hdata]
  simp only [decodeLineCore]
  split
  case isTrue hcond =>
    unfold decodeAfterMarker
    rw [hrt]
    simp only [Option.elim, decodeCount]
    rw [h1, Option.some_bind, h2, Option.map_some']
  case isFalse hcond =>
    exfalso
    apply hcond
    simp only [Bool.and_eq_true, decide_eq_true_eq]
    exact ⟨by simp, hd1, hd2⟩

theorem decodeLine_ok_inv {s : String} {r : SRecord} (h : decodeLine s = .ok r) :
    addrWidth r.rtype + 1 ≤ r.byteCount ∧
      r.data.length + addrWidth r.rtype + 1 = r.byteCount := by
  unfold decodeLine at h
  rcases hd : s.data with _ | ⟨c0, _ | ⟨d, rest⟩⟩ <;> rw [hd] at h <;>
    simp only [decodeLineCore] at h
  · cases h
  · cases h
  · split at h
    case isFalse => cases h
    case isTrue hm =>
      unfold decodeAfterMarker at h
      cases hrt : recTypeOfDigit (d.toNat - 48) with
      | none => rw [hrt] at h; cases h
      | some rt =>
        rw [hrt] at h
        simp only [Option.elim] at h
        rcases rest with _ | ⟨c1, _ | ⟨c2, body⟩⟩ <;> simp only [decodeCount] at h
        · cases h
        · cases h
        · cases h1 : hexDigitVal c1 with
          | none => rw [h1] at h; simp at h
          | some v1 =>
            rw [h1, Option.some_bind] at h
            cases h2 : hexDigitVal c2 with
            | none => rw [h2] at h; simp at h
            | some v2 =>
              rw [h2, Option.map_some'] at h
              simp only [Option.elim] at h
              obtain ⟨hrt2, hbc, hle, hlen, -⟩ := decodeBody_ok h
              rw [hrt2, hbc]
              exact ⟨hle, hlen⟩

theorem decodeBody_truncated (rt : RecType) (bc : Nat) (body : List Char)
    (h : body.length < 2 * bc) : decodeBody rt bc body = .error .truncatedRecord := by
  unfold decodeBody
  rw [if_pos h]

theorem decodeBody_garbage (rt : RecType) (bc : Nat) (body : List Char)
    (h : 2 * bc < body.length) : decodeBody rt bc body = .error .trailingGarbage := by
  unfold decodeBody
  rw [if_neg (by omega), if_pos h]

theorem decodeBody_malformed (rt : RecType) (bc : Nat) (body : List Char)
    (hlen : body.length = 2 * bc) (hp : hexPairsOf body ≠ none)
    (hm : bc < addrWidth rt + 1) : decodeBody rt bc body = .error .malformedRecord := by
  unfold decodeBody
  rw [if_neg (by omega), if_neg (by omega)]
  cases hpb : hexPairsOf body with
  | none => exact absurd hpb hp
  | some bytes =>
    simp only [Option.elim]
    rw [if_pos hm]

/-- C4: the decoder selects the address-field width from the record type per
the canonical table (S0/S1/S9 → 4 hex chars, S2/S8 → 6, S3/S7 → 8); every
successfully decoded record's declared byte count covers exactly that
address width plus its data and checksum byte; and a line whose declared
extent cannot contain a full address field of that width (plus the checksum)
fails to decode with `MalformedRecord`. -/
theorem C4_width_table :
    (2 * addrWidth .s0 = 4 ∧ 2 * addrWidth .s1 = 4 ∧ 2 * addrWidth .s9 = 4 ∧
      2 * addrWidth .s2 = 6 ∧ 2 * addrWidth .s8 = 6 ∧
      2 * addrWidth .s3 = 8 ∧ 2 * addrWidth .s7 = 8) ∧
    (∀ (s : String) (r : SRecord), decodeLine s = .ok r →
      addrWidth r.rtype + 1 ≤ r.byteCount ∧
        r.data.length + addrWidth r.rtype + 1 = r.byteCount) ∧
    (∀ (d c1 c2 : Char) (body : List Char) (rt : RecType) (v1 v2 : Nat),
      48 ≤ d.toNat → d.toNat ≤ 57 → recTypeOfDigit (d.toNat - 48) = some rt →
      hexDigitVal c1 = some v1 → hexDigitVal c2 = some v2 →
      body.length = 2 * (16 * v1 + v2) → hexPairsOf body ≠ none →
      16 * v1 + v2 < addrWidth rt + 1 →
      decodeLine ⟨'S' :: d :: c1 :: c2 :: body⟩ = .error .malformedRecord) := by
  refine ⟨⟨rfl, rfl, rfl, rfl, rfl, rfl, rfl⟩, fun s r h => decodeLine_ok_inv h, ?_⟩
  intro d c1 c2 body rt v1 v2 hd1 hd2 hrt h1 h2 hblen hp hm
  rw [decodeLine_reduce d c1 c2 body rt v1 v2 hd1 hd2 hrt h1 h2]
  exact decodeBody_malformed rt (16 * v1 + v2) body hblen hp hm

/-- C4 witness: `S102ABCD` declares byte count 2, too small for the S1
address field plus checksum, and decodes to `MalformedRecord`; the good line
`S1030000FC` decodes successfully with a consistent byte count. -/
theorem C4_witness :
    decodeLine "S102ABCD" = .error .malformedRecord ∧
      decodeLine "S1030000FC" =
        .ok { rtype := .s1, address := 0, data := [], byteCount := 3, checksum := 252 } ∧
      (addrWidth RecType.s1 + 1 ≤ 3 ∧ (0 : Nat) + addrWidth RecType.s1 + 1 = 3) := by
  refine ⟨?_, rfl, ?_⟩
  · exact C4_width_table.2.2 '1' '0' '2' ['A', 'B', 'C', 'D'] .s1 0 2
      (by decide) (by decide) (by decide) (by decide) (by decide) (by decide)
      (by decide) (by decide)
  · have h3 := C4_width_table.2.1 "S1030000FC"
      { rtype := .s1, address := 0, data := [], byteCount := 3, checksum := 252 } rfl
    simpa using h3

/-- C5: once the marker and byte-count field of a line are read, the number
of hex-pairs present after the count field (checksum included) must equal
the declared byte count: fewer pairs decode to `TruncatedRecord`, more to
`TrailingGarbage`, in both cases regardless of any checksum content. -/
theorem C5_count_mismatch (d c1 c2 : Char) (body : List Char) (rt : RecType)
    (v1 v2 m : Nat) (hd1 : 48 ≤ d.toNat) (hd2 : d.toNat ≤ 57)
    (hrt : recTypeOfDigit (d.toNat - 48) = some rt)
    (h1 : hexDigitVal c1 = some v1) (h2 : hexDigitVal c2 = some v2)
    (hblen : body.length = 2 * m) :
    (m < 16 * v1 + v2 →
      decodeLine ⟨'S' :: d :: c1 :: c2 :: body⟩ = .error .truncatedRecord) ∧
    (16 * v1 + v2 < m →
      decodeLine ⟨'S' :: d :: c1 :: c2 :: body⟩ = .error .trailingGarbage) := by
  rw [decodeLine_reduce d c1 c2 body rt v1 v2 hd1 hd2 hrt h1 h2]
  constructor
  · intro hlt
    exact decodeBody_truncated rt (16 * v1 + v2) body (by omega)
  · intro hgt
    exact decodeBody_garbage rt (16 * v1 + v2) body (by omega)

/-- C5 witness: with declared byte count `0x05` but only 4 pairs present the
line `S105000000FF` is truncated; with 6 pairs present `S1050000000000FF`
has trailing garbage. -/
theorem C5_witness :
    decodeLine "S105000000FF" = .error .truncatedRecord ∧
      decodeLine "S1050000000000FF" = .error .trailingGarbage := by
  constructor
  · exact (C5_count_mismatch '1' '0' '5' ['0', '0', '0', '0', '0', '0', 'F', 'F']
      .s1 0 5 4 (by decide) (by decide) (by decide) (by decide) (by decide)
      (by decide)).1 (by decide)
  · exact (C5_count_mismatch '1' '0' '5'
      ['0', '0', '0', '0', '0', '0', '0', '0', '0', '0', 'F', 'F']
      .s1 0 5 6 (by decide) (by decide) (by decide) (by decide) (by decide)
      (by decide)).2 (by decide)

/-- C6 counterexample: the line `S1030000FF` decodes successfully although
its trailing byte `0xFF` differs from the computed one's-complement checksum
`0xFC`, so "for every record that decodes successfully the computed checksum
equals the trailing checksum byte" is false: decoding alone does not enforce
the checksum. -/
theorem C6_counterexample :
    decodeLine "S1030000FF" =
      .ok { rtype := .s1, address := 0, data := [], byteCount := 3, checksum := 255 } ∧
    checksumCompute 3 [0, 0] [] = 252 ∧
    checksumVerify { rtype := .s1, address := 0, data := [], byteCount := 3,
                     checksum := 255 } = false :=
  ⟨rfl, rfl, rfl⟩

/-- C6 (amended): for every successfully decoded record, `verify` returns
true exactly when the one's-complement checksum computed from the byte
count, address bytes and data equals the record's trailing checksum byte;
in particular, on any record whose checksum byte differs from that computed
value, `verify` returns false. -/
theorem C6_verify_iff (s : String) (r : SRecord) (_h : decodeLine s = .ok r) :
    (checksumVerify r = true ↔
      r.checksum = checksumCompute r.byteCount
        (addrBytes (addrWidth r.rtype) r.address) r.data) ∧
    (∀ c : Nat, c ≠ checksumCompute r.byteCount
        (addrBytes (addrWidth r.rtype) r.address) r.data →
      checksumVerify { r with checksum := c } = false) := by
  constructor
  · unfold checksumVerify
    rw [beq_iff_eq]
    exact eq_comm
  · intro c hc
    unfold checksumVerify
    simp only [beq_eq_false_iff_ne, ne_eq]
    exact fun he => hc he.symm

/-- C6 witness: applied to the well-formed line `S1030000FC`, whose record
verifies, and to its corruptions with any differing checksum byte. -/
theorem C6_witness :
    decodeLine "S1030000FC" =
      .ok { rtype := .s1, address := 0, data := [], byteCount := 3, checksum := 252 } ∧
    ((checksumVerify { rtype := .s1, address := 0, data := [], byteCount := 3,
                       checksum := 252 } = true ↔
        (252 : Nat) = checksumCompute 3 (addrBytes 2 0) []) ∧
      (∀ c : Nat, c ≠ checksumCompute 3 (addrBytes 2 0) [] →
        checksumVerify { rtype := .s1, address := 0, data := [], byteCount := 3,
                         checksum := c } = false)) :=
  ⟨rfl, C6_verify_iff "S1030000FC"
    { rtype := .s1, address := 0, data := [], byteCount := 3, checksum := 252 } rfl⟩

end spec

namespace spec

open srec2bin (hexDigitVal)

theorem hexChar_digit_toNat (d : Nat) (h : d ≤ 9) : (hexChar d).toNat = 48 + d := by
  interval_cases d <;> rfl

theorem hexDigitVal_hexChar (m : Nat) (h : m < 16) : hexDigitVal (hexChar m) = some m := by
  interval_cases m <;> rfl

theorem bytesToHex_length : ∀ (bs : List Nat), (bytesToHex bs).length = 2 * bs.length := by
  intro bs
  induction bs with
  | nil => rfl
  | cons b bs ih =>
    simp only [bytesToHex, toHexPair, List.length_append, List.length_cons, ih,
      List.length_nil]
    omega

theorem hexPairsOf_bytesToHex : ∀ (bs : List Nat), (∀ b ∈ bs, b < 256) →
    hexPairsOf (bytesToHex bs) = some bs := by
  intro bs
  induction bs with
  | nil => intro _; rfl
  | cons b bs ih =>
    intro h
    have hb : b < 256 := h b (List.mem_cons_self _ _)
    have hdiv : b / 16 < 16 := by omega
    have hmod : b % 16 < 16 := by omega
    show hexPairsOf (hexChar (b / 16) :: hexChar (b % 16) :: bytesToHex bs) = some (b :: bs)
    simp only [hexPairsOf]
    rw [hexDigitVal_hexChar _ hdiv, Option.some_bind, hexDigitVal_hexChar _ hmod,
      Option.some_bind, ih (fun x hx => h x (List.mem_cons_of_mem _ hx)), Option.map_some']
    congr 2
    omega

theorem addrBytes_length : ∀ (w a : Nat), (addrBytes w a).length = w := by
  intro w
  induction w with
  | zero => intro a; rfl
  | succ w ih => intro a; simp [addrBytes, ih]

theorem addrBytes_lt : ∀ (w a : Nat), ∀ b ∈ addrBytes w a, b < 256 := by
  intro w
  induction w with
  | zero => intro a b hb; simp [addrBytes] at hb
  | succ w ih =>
    intro a b hb
    simp only [addrBytes, List.mem_append, List.mem_singleton] at hb
    rcases hb with hb | hb
    · exact ih _ b hb
    · subst hb; omega

theorem natOfBytes_append (bs : List Nat) (b : Nat) :
    natOfBytes (bs ++ [b]) = 256 * natOfBytes bs + b := by
  unfold natOfBytes
  rw [List.foldl_append]
  rfl

theorem natOfBytes_addrBytes : ∀ (w a : Nat), natOfBytes (addrBytes w a) = a % 256 ^ w := by
  intro w
  induction w with
  | zero => intro a; simp [addrBytes, natOfBytes, Nat.mod_one]
  | succ w ih =>
    intro a
    simp only [addrBytes]
    have hpow : (256 : Nat) ^ (w + 1) = 256 * 256 ^ w := by ring
    rw [natOfBytes_append, ih, hpow, Nat.mod_mul]
    omega

theorem natOfBytes_addrBytes_eq (w a : Nat) (h : a < 256 ^ w) :
    natOfBytes (addrBytes w a) = a := by
  rw [natOfBytes_addrBytes]
  exact Nat.mod_eq_of_lt h

theorem checksumCompute_lt (bc : Nat) (aB data : List Nat) :
    checksumCompute bc aB data < 256 := by
  unfold checksumCompute
  omega

theorem decodeBody_encodeSide (rt : RecType) (w : Nat) (hw : addrWidth rt = w)
    (aB data : List Nat) (ck : Nat) (haB : aB.length = w)
    (hall : ∀ b ∈ aB ++ data ++ [ck], b < 256) :
    decodeBody rt (w + data.length + 1) (bytesToHex (aB ++ data ++ [ck])) =
      .ok { rtype := rt, address := natOfBytes aB, data := data,
            byteCount := w + data.length + 1, checksum := ck } := by
  have hlistlen : (aB ++ data ++ [ck]).length = w + data.length + 1 := by
    simp only [List.length_append, List.length_cons, List.length_nil, haB]
  have hlen : (bytesToHex (aB ++ data ++ [ck])).length = 2 * (w + data.length + 1) := by
    rw [bytesToHex_length, hlistlen]
  unfold decodeBody
  rw [if_neg (by omega), if_neg (by omega), hexPairsOf_bytesToHex _ hall]
  simp only [Option.elim]
  rw [if_neg (by omega)]
  have hassoc : aB ++ data ++ [ck] = aB ++ (data ++ [ck]) := by rw [List.append_assoc]
  have htake : (aB ++ data ++ [ck]).take (addrWidth rt) = aB := by
    rw [hassoc, hw, ← haB, List.take_left]
  have hdrop : (aB ++ data ++ [ck]).drop (addrWidth rt) = data ++ [ck] := by
    rw [hassoc, hw, ← haB, List.drop_left]
  rw [htake, hdrop, List.dropLast_concat, List.getLastD_concat]

theorem decodeLine_encodeRecord (digit w a : Nat) (data : List Nat) (rt : RecType)
    (hd9 : digit ≤ 9) (hrt : recTypeOfDigit digit = some rt) (hw : addrWidth rt = w)
    (ha : a < 256 ^ w) (hdata : ∀ b ∈ data, b < 256)
    (hbc : w + data.length + 1 ≤ 255) :
    decodeLine (encodeRecord digit w a data) =
      .ok { rtype := rt, address := a, data := data,
            byteCount := w + data.length + 1,
            checksum := checksumCompute (w + data.length + 1) (addrBytes w a) data } := by
  have htn : (hexChar digit).toNat = 48 + digit := hexChar_digit_toNat digit hd9
  have hbcv : w + data.length + 1 ≤ 255 := hbc
  have hdivlt : (w + data.length + 1) / 16 < 16 := by omega
  have hmodlt : (w + data.length + 1) % 16 < 16 := by omega
  have hstr : encodeRecord digit w a data =
      ⟨'S' :: hexChar digit :: hexChar ((w + data.length + 1) / 16) ::
        hexChar ((w + data.length + 1) % 16) ::
        bytesToHex (addrBytes w a ++ data ++
          [checksumCompute (w + data.length + 1) (addrBytes w a) data])⟩ := by
    unfold encodeRecord
    simp only [bytesToHex, toHexPair]
    rfl
  rw [hstr]
  rw [decodeLine_reduce (hexChar digit) (hexChar ((w + data.length + 1) / 16))
    (hexChar ((w + data.length + 1) % 16)) _ rt
    ((w + data.length + 1) / 16) ((w + data.length + 1) % 16)
    (by omega) (by omega) (by rw [htn]; simpa using hrt)
    (hexDigitVal_hexChar _ hdivlt) (hexDigitVal_hexChar _ hmodlt)]
  rw [show 16 * ((w + data.length + 1) / 16) + (w + data.length + 1) % 16 =
    w + data.length + 1 by omega]
  have hall : ∀ b ∈ addrBytes w a ++ data ++
      [checksumCompute (w + data.length + 1) (addrBytes w a) data], b < 256 := by
    intro b hb
    simp only [List.mem_append, List.mem_singleton] at hb
    rcases hb with (hb | hb) | hb
    · exact addrBytes_lt w a b hb
    · exact hdata b hb
    · subst hb; exact checksumCompute_lt _ _ _
  rw [decodeBody_encodeSide rt w hw (addrBytes w a) data _ (addrBytes_length w a) hall]
  rw [natOfBytes_addrBytes_eq w a ha]

end spec

namespace spec

theorem chunkGo_irrel (c : Nat) : ∀ (f1 f2 A : Nat) (l : List Nat),
    l.length ≤ f1 → l.length ≤ f2 → chunkGo c f1 A l = chunkGo c f2 A l := by
  intro f1
  induction f1 with
  | zero =>
    intro f2 A l h1 h2
    have hl : l = [] := List.length_eq_zero.mp (by omega)
    subst hl
    cases f2 with
    | zero => rfl
    | succ f2 => simp [chunkGo]
  | succ f1 ih =>
    intro f2 A l h1 h2
    cases f2 with
    | zero =>
      have hl : l = [] := List.length_eq_zero.mp (by omega)
      subst hl
      simp [chunkGo]
    | succ f2 =>
      simp only [chunkGo]
      by_cases hc : c = 0 ∨ l = []
      · rw [if_pos hc, if_pos hc]
      · rw [if_neg hc, if_neg hc]
        push_neg at hc
        have hlp : 0 < l.length := List.length_pos.mpr hc.2
        have hc0 : 0 < c := Nat.pos_of_ne_zero hc.1
        congr 1
        apply ih
        · rw [List.length_drop]; omega
        · rw [List.length_drop]; omega

theorem chunkRanges_eq (c A : Nat) (l : List Nat) :
    chunkRanges c A l = if c = 0 ∨ l = [] then []
      else (A, l.take c) :: chunkRanges c (A + c) (l.drop c) := by
  unfold chunkRanges
  cases hl : l with
  | nil => simp [chunkGo]
  | cons x xs =>
    simp only [List.length_cons, chunkGo]
    by_cases hc : c = 0 ∨ x :: xs = []
    · rw [if_pos hc, if_pos hc]
    · rw [if_neg hc, if_neg hc]
      push_neg at hc
      have hc0 : 0 < c := Nat.pos_of_ne_zero hc.1
      congr 1
      apply chunkGo_irrel
      · rw [List.length_drop]; simp only [List.length_cons]; omega
      · exact le_refl _

theorem chunkRanges_props (c : Nat) (hc : 0 < c) : ∀ (n : Nat) (l : List Nat),
    l.length ≤ n → ∀ (A : Nat), ∀ r ∈ chunkRanges c A l,
      A ≤ r.1 ∧ r.1 + r.2.length ≤ A + l.length ∧ r.2.length ≤ c ∧ r.2 ≠ [] ∧
        ∀ b ∈ r.2, b ∈ l := by
  intro n
  induction n with
  | zero =>
    intro l hl A r hr
    have : l = [] := List.length_eq_zero.mp (by omega)
    subst this
    rw [chunkRanges_eq] at hr
    simp at hr
  | succ n ih =>
    intro l hl A r hr
    rw [chunkRanges_eq] at hr
    by_cases h0 : c = 0 ∨ l = []
    · rw [if_pos h0] at hr; cases hr
    · rw [if_neg h0] at hr
      push_neg at h0
      have hlp : 0 < l.length := List.length_pos.mpr h0.2
      rcases List.mem_cons.mp hr with hr | hr
      · subst hr
        refine ⟨le_refl A, ?_, ?_, ?_, ?_⟩
        · rw [List.length_take]; omega
        · rw [List.length_take]; omega
        · intro hnil
          have hlen := congrArg List.length hnil
          rw [List.length_take] at hlen
          simp only [List.length_nil] at hlen
          omega
        · intro b hb
          exact (List.take_sublist _ _).subset hb
      · by_cases hcl : l.length ≤ c
        · rw [List.drop_eq_nil_of_le hcl, chunkRanges_eq] at hr
          simp at hr
        · push_neg at hcl
          have hdl : (l.drop c).length ≤ n := by rw [List.length_drop]; omega
          obtain ⟨ha, hb, hc2, hd, he⟩ := ih (l.drop c) hdl (A + c) r hr
          rw [List.length_drop] at hb
          refine ⟨by omega, by omega, hc2, hd,
            fun b hbm => (List.drop_sublist _ _).subset (he b hbm)⟩

theorem foldl_max_init (l : List (Nat × List Nat)) : ∀ (i : Nat),
    i ≤ l.foldl (fun acc r => max acc r.1) i := by
  induction l with
  | nil => intro i; exact le_refl i
  | cons x xs ih =>
    intro i
    exact le_trans (le_max_left i x.1) (ih (max i x.1))

theorem foldl_max_mem (l : List (Nat × List Nat)) : ∀ (i : Nat) (r : Nat × List Nat),
    r ∈ l → r.1 ≤ l.foldl (fun acc t => max acc t.1) i := by
  induction l with
  | nil => intro i r hr; cases hr
  | cons x xs ih =>
    intro i r hr
    rcases List.mem_cons.mp hr with hr | hr
    · subst hr
      exact le_trans (le_max_right i r.1) (foldl_max_init xs _)
    · exact ih _ r hr

theorem foldl_max_le (l : List (Nat × List Nat)) : ∀ (i b : Nat), i ≤ b →
    (∀ r ∈ l, r.1 ≤ b) → l.foldl (fun acc r => max acc r.1) i ≤ b := by
  induction l with
  | nil => intro i b hi _; exact hi
  | cons x xs ih =>
    intro i b hi h
    exact ih _ b (max_le hi (h x (List.mem_cons_self _ _)))
      (fun r hr => h r (List.mem_cons_of_mem _ hr))

theorem pickWidth_mem (m : Nat) : pickWidth m = 2 ∨ pickWidth m = 3 ∨ pickWidth m = 4 := by
  unfold pickWidth
  split_ifs <;> simp

theorem pickWidth_bound (m : Nat) (h : m < 2 ^ 32) : m < 256 ^ pickWidth m := by
  unfold pickWidth
  split_ifs with h1 h2
  · have : (256 : Nat) ^ 2 = 2 ^ 16 := by norm_num
    omega
  · have : (256 : Nat) ^ 3 = 2 ^ 24 := by norm_num
    omega
  · have : (256 : Nat) ^ 4 = 2 ^ 32 := by norm_num
    omega

theorem widths_ok (w : Nat) (hw : w = 2 ∨ w = 3 ∨ w = 4) :
    ∃ rtd rtt : RecType,
      recTypeOfDigit (dataDigit w) = some rtd ∧ addrWidth rtd = w ∧ dataDigit w ≤ 9 ∧
        (rtd = .s1 ∨ rtd = .s2 ∨ rtd = .s3) ∧
      recTypeOfDigit (termDigit w) = some rtt ∧ addrWidth rtt = w ∧ termDigit w ≤ 9 ∧
        (rtt = .s7 ∨ rtt = .s8 ∨ rtt = .s9) := by
  rcases hw with h | h | h <;> subst h
  · exact ⟨.s1, .s9, rfl, rfl, by decide, Or.inl rfl, rfl, rfl, by decide,
      Or.inr (Or.inr rfl)⟩
  · exact ⟨.s2, .s8, rfl, rfl, by decide, Or.inr (Or.inl rfl), rfl, rfl, by decide,
      Or.inr (Or.inl rfl)⟩
  · exact ⟨.s3, .s7, rfl, rfl, by decide, Or.inr (Or.inr rfl), rfl, rfl, by decide,
      Or.inl rfl⟩

theorem lookupByte_none_of_lt (x : Nat) : ∀ (ranges : List (Nat × List Nat)),
    (∀ r ∈ ranges, x < r.1) → lookupByte ranges x = none := by
  intro ranges
  induction ranges with
  | nil => intro _; rfl
  | cons r rest ih =>
    intro h
    simp only [lookupByte]
    rw [ih (fun t ht => h t (List.mem_cons_of_mem _ ht))]
    simp only [Option.elim]
    rw [if_neg (by have := h r (List.mem_cons_self _ _); omega)]

theorem lookupByte_chunkRanges (c : Nat) (hc : 0 < c) : ∀ (n : Nat) (l : List Nat),
    l.length ≤ n → ∀ (A i : Nat), i < l.length →
      lookupByte (chunkRanges c A l) (A + i) = l[i]? := by
  intro n
  induction n with
  | zero => intro l hl A i hi; omega
  | succ n ih =>
    intro l hl A i hi
    have hl0 : l ≠ [] := by
      intro h
      subst h
      simp at hi
    rw [chunkRanges_eq, if_neg (by push_neg; exact ⟨Nat.pos_iff_ne_zero.mp hc, hl0⟩)]
    simp only [lookupByte]
    by_cases hic : i < c
    · have hrest : lookupByte (chunkRanges c (A + c) (l.drop c)) (A + i) = none := by
        apply lookupByte_none_of_lt
        intro r hr
        by_cases hcl : l.length ≤ c
        · rw [List.drop_eq_nil_of_le hcl, chunkRanges_eq] at hr
          simp at hr
        · obtain ⟨ha, -, -, -, -⟩ := chunkRanges_props c hc (l.drop c).length (l.drop c)
            (le_refl _) (A + c) r hr
          omega
      rw [hrest]
      simp only [Option.elim]
      rw [if_pos (by rw [List.length_take]; omega)]
      rw [show A + i - A = i by omega, List.getElem?_take, if_pos hic]
    · push_neg at hic
      have hrec : lookupByte (chunkRanges c (A + c) (l.drop c)) (A + i) =
          (l.drop c)[i - c]? := by
        have hres := ih (l.drop c) (by rw [List.length_drop]; omega) (A + c) (i - c)
          (by rw [List.length_drop]; omega)
        rw [show A + c + (i - c) = A + i by omega] at hres
        exact hres
      rw [hrec, List.getElem?_drop, show c + (i - c) = i by omega,
        List.getElem?_eq_getElem hi]
      rfl

theorem readBytes_eq (sp : AddressSpace) : ∀ (l : List Nat) (a : Nat),
    (∀ i, i < l.length → lookupByte sp.ranges (a + i) = l[i]?) →
    readBytes sp a l.length = some l := by
  intro l
  induction l with
  | nil => intro a _; rfl
  | cons b bs ih =>
    intro a h
    simp only [List.length_cons, readBytes]
    have h0 : lookupByte sp.ranges a = some b := by
      have hh := h 0 (Nat.succ_pos _)
      simpa using hh
    rw [h0, Option.some_bind]
    rw [ih (a + 1) (fun i hi => by
      have hh := h (i + 1) (Nat.succ_lt_succ hi)
      rw [show a + (i + 1) = a + 1 + i by omega] at hh
      simpa using hh)]
    rfl

theorem decodeFileGo_data (digit w : Nat) (rt : RecType)
    (hrt : recTypeOfDigit digit = some rt) (hw : addrWidth rt = w) (hd9 : digit ≤ 9)
    (hdt : rt = .s1 ∨ rt = .s2 ∨ rt = .s3) :
    ∀ (recs : List (Nat × List Nat)) (rest : List String) (sp : AddressSpace),
      (∀ r ∈ recs, r.1 < 256 ^ w ∧ (∀ b ∈ r.2, b < 256) ∧ w + r.2.length + 1 ≤ 255) →
      decodeFileGo (recs.map (fun r => encodeRecord digit w r.1 r.2) ++ rest) sp =
        decodeFileGo rest ⟨sp.ranges ++ recs⟩ := by
  intro recs
  induction recs with
  | nil =>
    intro rest sp _
    simp only [List.map_nil, List.nil_append, List.append_nil]
  | cons rc recs ih =>
    intro rest sp h
    obtain ⟨ha, hb, hbc⟩ := h rc (List.mem_cons_self _ _)
    have hdec := decodeLine_encodeRecord digit w rc.1 rc.2 rt hd9 hrt hw ha hb hbc
    have htail := ih rest ⟨sp.ranges ++ [(rc.1, rc.2)]⟩
      (fun r hr => h r (List.mem_cons_of_mem _ hr))
    rcases hdt with hdt | hdt | hdt <;> subst hdt <;>
      (simp only [List.map_cons, List.cons_append]
       rw [decodeFileGo]
       rw [hdec]
       show decodeFileGo (List.map (fun r => encodeRecord digit w r.1 r.2) recs ++ rest)
           ⟨sp.ranges ++ [(rc.1, rc.2)]⟩ = decodeFileGo rest ⟨sp.ranges ++ rc :: recs⟩
       rw [htail]
       show decodeFileGo rest ⟨(sp.ranges ++ [(rc.1, rc.2)]) ++ recs⟩ =
         decodeFileGo rest ⟨sp.ranges ++ rc :: recs⟩
       rw [List.append_assoc, List.singleton_append])

theorem decodeFileGo_term (digit w A : Nat) (rt : RecType)
    (hrt : recTypeOfDigit digit = some rt) (hw : addrWidth rt = w) (hd9 : digit ≤ 9)
    (htt : rt = .s7 ∨ rt = .s8 ∨ rt = .s9) (hA : A < 256 ^ w)
    (hbc : w + 1 ≤ 255) (sp : AddressSpace) :
    decodeFileGo [encodeRecord digit w A []] sp = .ok (sp, some A) := by
  have hdec := decodeLine_encodeRecord digit w A [] rt hd9 hrt hw hA (by simp)
    (by simpa using hbc)
  rcases htt with h | h | h <;> subst h <;>
    (rw [decodeFileGo]; rw [hdec])

theorem decodeFileGo_header (sp : AddressSpace) (rest : List String) :
    decodeFileGo (encodeRecord 0 2 0 [] :: rest) sp = decodeFileGo rest sp := by
  have hdec := decodeLine_encodeRecord 0 2 0 [] .s0 (by omega) rfl rfl (by norm_num)
    (by simp) (by decide)
  rw [decodeFileGo]
  rw [hdec]

end spec

namespace spec

theorem encode_decode_core (B : List Nat) (A c w : Nat) (withHeader : Bool)
    (hB : ∀ b ∈ B, b < 256) (hc : 0 < c) (hc2 : c ≤ 250)
    (hwv : w = 2 ∨ w = 3 ∨ w = 4)
    (hstarts : ∀ r ∈ chunkRanges c A B, r.1 < 256 ^ w) (hAw : A < 256 ^ w) :
    decodeFileGo ((if withHeader then [encodeRecord 0 2 0 []] else []) ++
        (chunkRanges c A B).map (fun r => encodeRecord (dataDigit w) w r.1 r.2) ++
        [encodeRecord (termDigit w) w A []]) ⟨[]⟩ =
      .ok (⟨chunkRanges c A B⟩, some A) := by
  obtain ⟨rtd, rtt, hrtd, hwd, hd9, hdt, hrtt, hwt, ht9, htt⟩ := widths_ok w hwv
  have hrecs : ∀ r ∈ chunkRanges c A B,
      r.1 < 256 ^ w ∧ (∀ b ∈ r.2, b < 256) ∧ w + r.2.length + 1 ≤ 255 := by
    intro r hr
    obtain ⟨-, -, hlenc, -, hmem⟩ := chunkRanges_props c hc B.length B (le_refl _) A r hr
    refine ⟨hstarts r hr, fun b hb => hB b (hmem b hb), ?_⟩
    rcases hwv with h | h | h <;> omega
  have hdata := decodeFileGo_data (dataDigit w) w rtd hrtd hwd hd9 hdt
    (chunkRanges c A B) [encodeRecord (termDigit w) w A []] ⟨[]⟩ hrecs
  have hterm := decodeFileGo_term (termDigit w) w A rtt hrtt hwt ht9 htt hAw
    (by rcases hwv with h | h | h <;> omega)
    ⟨(⟨[]⟩ : AddressSpace).ranges ++ chunkRanges c A B⟩
  rw [List.append_assoc]
  cases withHeader with
  | true =>
    rw [if_pos rfl, List.singleton_append, decodeFileGo_header, hdata, hterm]
    rfl
  | false =>
    rw [if_neg Bool.false_ne_true, List.nil_append, hdata, hterm]
    rfl

/-- C7: for every binary buffer B (of bytes) and base address A, decoding
the lines produced by encoding B at base address A — for any chunk size in
1..250 and either header option, provided the image fits below 2^32 —
succeeds, recovers A as the entry point, and yields an address space whose
contiguous view at A over the length of B equals B, with no gaps. -/
theorem C7_roundtrip (B : List Nat) (A c : Nat) (withHeader : Bool)
    (hB : ∀ b ∈ B, b < 256) (hc : 0 < c) (hc2 : c ≤ 250)
    (hA : A + B.length < 2 ^ 32) :
    decode_file (encode_buffer B A c withHeader) =
      .ok (⟨chunkRanges c A B⟩, some A) ∧
    readBytes ⟨chunkRanges c A B⟩ A B.length = some B := by
  have hprops := chunkRanges_props c hc B.length B (le_refl _) A
  have hstartle : ∀ r ∈ chunkRanges c A B, r.1 ≤ A + B.length := by
    intro r hr
    obtain ⟨-, h2, -, h4, -⟩ := hprops r hr
    have := List.length_pos.mpr h4
    omega
  have hmlt : (chunkRanges c A B).foldl (fun acc r => max acc r.1) A < 2 ^ 32 :=
    Nat.lt_of_le_of_lt (foldl_max_le _ A (A + B.length) (by omega) hstartle) hA
  have hw256 := pickWidth_bound _ hmlt
  have hwv := pickWidth_mem ((chunkRanges c A B).foldl (fun acc r => max acc r.1) A)
  have hstarts : ∀ r ∈ chunkRanges c A B, r.1 < 256 ^ bufferWidth B A c := by
    intro r hr
    exact Nat.lt_of_le_of_lt (foldl_max_mem _ A r hr) hw256
  have hAw : A < 256 ^ bufferWidth B A c :=
    Nat.lt_of_le_of_lt (foldl_max_init _ A) hw256
  constructor
  · unfold decode_file encode_buffer
    exact encode_decode_core B A c (bufferWidth B A c) withHeader hB hc hc2 hwv hstarts hAw
  · apply readBytes_eq
    intro i hi
    exact lookupByte_chunkRanges c hc B.length B (le_refl _) A i hi

/-- C7 witness: the concrete buffer [1, 2, 3] encoded at base address 256
with chunk size 2 and a header decodes back to itself with entry point 256
and no gaps. -/
theorem C7_witness :
    ((∀ b ∈ [1, 2, 3], b < 256) ∧ 0 < 2 ∧ 2 ≤ 250 ∧
        256 + [1, 2, 3].length < 2 ^ 32) ∧
      decode_file (encode_buffer [1, 2, 3] 256 2 true) =
        .ok (⟨chunkRanges 2 256 [1, 2, 3]⟩, some 256) ∧
      readBytes ⟨chunkRanges 2 256 [1, 2, 3]⟩ 256 [1, 2, 3].length = some [1, 2, 3] :=
  ⟨⟨by decide, by decide, by decide, by decide⟩,
    C7_roundtrip [1, 2, 3] 256 2 true (by decide) (by decide) (by decide) (by decide)⟩

end spec
